import Mathlib

/-
Verification of the streaming spectral-analysis pipeline of the
FFT-Microphone-analyzer repository (src/main.rs), as a shallow embedding.

Samples are 32-bit floats in the source; they are modelled by exact reals.
The claims settled here only exercise value-exact computations (zero
windows, integer keys, the ratio 440/440, small integer arithmetic), where
the f32 computations of the source are exact, so the exact-real embedding
is faithful for them.

Rust-specific numeric primitives of the source are embedded explicitly:
truncating float-to-int conversion, the saturating float-to-integer `as`
casts, float remainder (sign of the dividend), rounding half away from
zero, the wrapping i32-to-usize cast, and truncating integer division.
-/

set_option maxHeartbeats 1000000

namespace Analyzer

/-- One invocation of the audio-input data callback registered in
build_input_stream (src/main.rs lines 271-321), restricted to its buffer
dynamics: given the retained internal buffer and the incoming chunk of
samples, it returns the new retained buffer together with the analysis
window completed by this call, if any.  (In the source, the completed
window buf is passed to fft and the magnitudes are stored in the shared
result slot; the window content itself is what this model returns.)
The source:
  let sum_data = buf.len() + data.len();
  if buf.len() < buffer_size && sum_data >= buffer_size {
      let max_i = data.len() - (sum_data - buffer_size);
      if max_i > 0 { buf.append(&mut data[0..max_i].to_vec());
                     remaining = data[max_i..].to_vec(); } }
  if buf.len() == buffer_size { ... fft(buf) ...; *buf = remaining; }
  else { buf.append(&mut data.to_vec()); } -/
def data_callback (buffer_size : ℕ) (buf data : List ℝ) : List ℝ × Option (List ℝ) :=
  let sum_data := buf.length + data.length
  let split :=
    if buf.length < buffer_size ∧ buffer_size ≤ sum_data then
      let max_i := data.length - (sum_data - buffer_size)
      if 0 < max_i then (buf ++ data.take max_i, data.drop max_i)
      else (buf, ([] : List ℝ))
    else (buf, ([] : List ℝ))
  if split.1.length = buffer_size then (split.2, some split.1)
  else (split.1 ++ data, none)

/-- Iterating the data callback over a sequence of chunks, starting from a
given retained buffer.  Returns the final retained buffer and the list of
analysis windows emitted, in order. -/
def run_callbacks (buffer_size : ℕ) (buf : List ℝ) : List (List ℝ) → List ℝ × List (List ℝ)
  | [] => (buf, [])
  | chunk :: rest =>
    let step := data_callback buffer_size buf chunk
    let next := run_callbacks buffer_size step.1 rest
    (next.1, step.2.toList ++ next.2)

/-- Side condition for the amended sample-conservation claim: at each
callback, the retained buffer plus the incoming chunk hold fewer than
2 * buffer_size samples, i.e. no single chunk crosses more than one
window boundary. -/
def chunks_bounded (buffer_size : ℕ) : List ℝ → List (List ℝ) → Prop
  | _, [] => True
  | buf, chunk :: rest =>
      buf.length + chunk.length < 2 * buffer_size ∧
      chunks_bounded buffer_size (data_callback buffer_size buf chunk).1 rest

/-- Embedding of is_power_of_two (src/main.rs lines 213-215):
n != 0 && (n & (n - 1)) == 0. -/
def is_power_of_two (n : ℕ) : Bool :=
  n != 0 && ((n &&& (n - 1)) == 0)

/-- Embedding of the even-indexed stride slice signal.slice(s![..;2]) used
by fft: elements at indices 0, 2, 4, ... -/
def even_slice (signal : List ℂ) : List ℂ :=
  (List.range ((signal.length + 1) / 2)).map fun i => signal.getD (2 * i) 0

/-- Embedding of the odd-indexed stride slice signal.slice(s![1..;2]) used
by fft: elements at indices 1, 3, 5, ... -/
def odd_slice (signal : List ℂ) : List ℂ :=
  (List.range (signal.length / 2)).map fun i => signal.getD (2 * i + 1) 0

/-- Embedding of fft (src/main.rs lines 217-241).  The panic on a
non-power-of-two length is modelled as none; the panic propagates out of
recursive calls via the match.  The twiddle factor is
Complex::new(0, -2 pi k / n).exp().  The output array of length n is
filled at positions k and k + n/2 for k in [0, n/2), which is exactly the
first-half/second-half append below. -/
noncomputable def fft (signal : List ℂ) : Option (List ℂ) :=
  if hp : is_power_of_two signal.length = true then
    if h1 : signal.length = 1 then some signal
    else
      match fft (even_slice signal), fft (odd_slice signal) with
      | some even, some odd =>
          some ((List.range (signal.length / 2)).map (fun k =>
                  even.getD k 0 +
                    Complex.exp ⟨0, -2 * Real.pi * (k : ℝ) / (signal.length : ℝ)⟩ *
                      odd.getD k 0) ++
                (List.range (signal.length / 2)).map (fun k =>
                  even.getD k 0 -
                    Complex.exp ⟨0, -2 * Real.pi * (k : ℝ) / (signal.length : ℝ)⟩ *
                      odd.getD k 0))
      | _, _ => none
  else none
termination_by signal.length
decreasing_by
  · have h0 : signal.length ≠ 0 := by
      have hp2 := hp
      simp [is_power_of_two] at hp2
      exact fun h => hp2.1 (List.length_eq_zero.mp h)
    simp only [even_slice, List.length_map, List.length_range]
    omega
  · have h0 : signal.length ≠ 0 := by
      have hp2 := hp
      simp [is_power_of_two] at hp2
      exact fun h => hp2.1 (List.length_eq_zero.mp h)
    simp only [odd_slice, List.length_map, List.length_range]
    omega

/-- Rust float-to-integer truncation (toward zero), the first step of the
numeric `as` casts of f32 values in the source. -/
noncomputable def rust_trunc (x : ℝ) : ℤ :=
  if x < 0 then ⌈x⌉ else ⌊x⌋

/-- Rust f32::round: rounding half away from zero (Lean round is half up,
which coincides for nonnegative arguments and is mirrored for negative
ones). -/
noncomputable def rust_round (x : ℝ) : ℝ :=
  if x < 0 then -((round (-x) : ℤ) : ℝ) else ((round x : ℤ) : ℝ)

/-- Rust f32::floor. -/
noncomputable def rust_floor (x : ℝ) : ℝ := ((⌊x⌋ : ℤ) : ℝ)

/-- Rust % on floats: remainder with the sign of the dividend,
a - b * trunc(a / b).  Only used with divisor 12 here. -/
noncomputable def rust_rem (a b : ℝ) : ℝ :=
  a - b * ((rust_trunc (a / b) : ℤ) : ℝ)

/-- Saturating f32-as-usize cast: truncate toward zero, clamp into
[0, 2^64 - 1]. -/
noncomputable def f32_as_usize (x : ℝ) : ℕ :=
  (min ((2 : ℤ) ^ 64 - 1) (max 0 (rust_trunc x))).toNat

/-- Saturating f32-as-i8 cast: truncate toward zero, clamp into
[-128, 127]. -/
noncomputable def f32_as_i8 (x : ℝ) : ℤ :=
  min 127 (max (-128) (rust_trunc x))

/-- Saturating f32-as-u8 cast: truncate toward zero, clamp into [0, 255]. -/
noncomputable def f32_as_u8 (x : ℝ) : ℕ :=
  (min 255 (max 0 (rust_trunc x))).toNat

/-- Embedding of NoteStatus::frequency_to_key_number (src/main.rs lines
49-51): 12.0 * (freq / 440.0).log2() + 49.0. -/
noncomputable def frequency_to_key_number (freq : ℝ) : ℝ :=
  12 * Real.logb 2 (freq / 440) + 49

/-- Embedding of NoteStatus::key_to_raw_note_number (src/main.rs lines
61-63): ((key - 1.0) % 12.0) - 2.0, with the Rust float remainder. -/
noncomputable def key_to_raw_note_number (key : ℝ) : ℝ :=
  rust_rem (key - 1) 12 - 2

/-- The twelve note names of NoteStatus::note_number_to_name
(src/main.rs lines 69-74); in the source they form one array of twelve
two-character strings, written here in two halves. -/
def notes_names : List String :=
  List.append ["C ", "C#", "D ", "D#", "E ", "F "]
    ["F#", "G ", "G#", "A ", "A#", "B "]

/-- Embedding of NoteStatus::note_number_to_name (src/main.rs lines
69-74): notes_names[(key - 1.0) as usize], with the saturating cast; an
out-of-bounds index (a Rust panic) is modelled as none. -/
noncomputable def note_number_to_name (key : ℝ) : Option String :=
  notes_names.get? (f32_as_usize (key - 1))

/-- Embedding of NoteStatus::get_error_percentage (src/main.rs lines
76-78): ((raw - target) * 100.0).round() as i8. -/
noncomputable def get_error_percentage (raw_note_number target_note_number : ℝ) : ℤ :=
  f32_as_i8 (rust_round ((raw_note_number - target_note_number) * 100))

/-- Embedding of NoteStatus::get_octave_by_key_number (src/main.rs lines
95-97): ((key_number.round() / 12.0).floor() + 1.0) as u8. -/
noncomputable def get_octave_by_key_number (key_number : ℝ) : ℕ :=
  f32_as_u8 (rust_floor (rust_round key_number / 12) + 1)

/-- Embedding of the NoteStatus record (src/main.rs lines 16-23). -/
structure NoteStatus where
  frequency_in_hz : ℝ
  key_number : ℝ
  raw_note_number : ℝ
  note_number : ℝ
  error_percentage : ℤ

/-- Embedding of NoteStatus::new (src/main.rs lines 26-39). -/
noncomputable def NoteStatus.new (frequency_in_hz : ℝ) : NoteStatus :=
  let key_number := frequency_to_key_number frequency_in_hz
  let raw_note_number := key_to_raw_note_number key_number
  let note_number := key_to_raw_note_number (rust_round key_number)
  let error_percentage := get_error_percentage raw_note_number note_number
  { frequency_in_hz := frequency_in_hz
    key_number := key_number
    raw_note_number := raw_note_number
    note_number := note_number
    error_percentage := error_percentage }

/-- Wrapping i32-as-usize cast (sign-extend, then reinterpret modulo
2^64). -/
def i32_as_usize (x : ℤ) : ℕ := (x % (2 : ℤ) ^ 64).toNat

/-- Embedding of the bin-selection tail of Graph::run (src/main.rs lines
198-209): if mouse_x >= frequency_bar_width * max_bins_displayed_len,
no bin is selected; otherwise the selected bin is
(mouse_x / frequency_bar_width) as usize % max_bins_displayed_len, with
the truncating i32 division of Rust. -/
def graph_select (mouse_x frequency_bar_width : ℤ) (max_bins_displayed_len : ℕ) : Option ℕ :=
  if frequency_bar_width * (max_bins_displayed_len : ℤ) ≤ mouse_x then none
  else some (i32_as_usize (Int.tdiv mouse_x frequency_bar_width) % max_bins_displayed_len)

/-- Embedding of the pause/copy prelude of Graph::run (src/main.rs lines
139-146): the working copy data_buffer is replaced by the shared slot
contents exactly when the pause flag is not set.  (The remainder of
Graph::run never writes data_buffer, so this is the whole effect of one
run on the working copy.) -/
def graph_run_sync (paused : Bool) (data_buffer locker : List ℝ) : List ℝ :=
  if !paused then locker else data_buffer

/-- Helper: the callback when the combined length stays below the window
size: the whole chunk is appended and no window is emitted. -/
theorem data_callback_small {W : ℕ} {buf data : List ℝ}
    (h : buf.length + data.length < W) :
    data_callback W buf data = (buf ++ data, none) := by
  have h1 : ¬ (buf.length < W ∧ W ≤ buf.length + data.length) := by omega
  have h2 : ¬ (buf.length = W) := by omega
  simp [data_callback, h1, h2]

/-- Helper: the callback when the buffer is strictly below the window size
and the chunk reaches it: the chunk is split at W - buf.length, the filled
window is emitted, and the rest of the chunk is retained. -/
theorem data_callback_split {W : ℕ} {buf data : List ℝ}
    (hb : buf.length < W) (hs : W ≤ buf.length + data.length) :
    data_callback W buf data =
      (data.drop (W - buf.length), some (buf ++ data.take (W - buf.length))) := by
  have hmax : data.length - (buf.length + data.length - W) = W - buf.length := by omega
  have hpos : 0 < W - buf.length := by omega
  have hlen : (buf ++ data.take (W - buf.length)).length = W := by
    simp [List.length_take]
    omega
  simp [data_callback, hb, hs, hmax, hpos, hlen]

/-- Helper: the callback when the buffer already holds exactly W samples:
the buffer is emitted, the retained remainder is empty, and the incoming
chunk is dropped. -/
theorem data_callback_full {W : ℕ} {buf : List ℝ} (h : buf.length = W)
    (data : List ℝ) :
    data_callback W buf data = ([], some buf) := by
  have h1 : ¬ (buf.length < W ∧ W ≤ buf.length + data.length) := by omega
  simp [data_callback, h1, h]

/-- Helper: the callback when the buffer holds strictly more than W
samples: the whole chunk is appended and no window is emitted. -/
theorem data_callback_over {W : ℕ} {buf : List ℝ} (h : W < buf.length)
    (data : List ℝ) :
    data_callback W buf data = (buf ++ data, none) := by
  have h1 : ¬ (buf.length < W ∧ W ≤ buf.length + data.length) := by omega
  have h2 : ¬ (buf.length = W) := by omega
  simp [data_callback, h1, h2]

/-- Claim C4 counterexample: with window_size 2, a buffer already holding
exactly two samples, and incoming chunk [2], the callback does not keep
the chunk as the new remainder; it resets the buffer to the empty
remainder (emitting the old buffer as a window) and the chunk samples are
lost, contrary to the claim. -/
theorem c4_counterexample :
    data_callback 2 [0, 1] [2] = ([], some [0, 1]) ∧
    (data_callback 2 [0, 1] [2]).1 ≠ [2] := by
  refine ⟨rfl, ?_⟩
  have h : (data_callback 2 [0, 1] [2]).1 = ([] : List ℝ) := rfl
  rw [h]
  simp

/-- Claim C4 (amended): if a chunk arrives when the internal buffer
already holds exactly window_size samples, the split branch is skipped,
so no append occurs and the retained remainder stays empty; the buffered
window is emitted and the buffer becomes empty, while the incoming chunk
is dropped entirely (it does not become the new remainder). -/
theorem c4_exactly_full_buffer (W : ℕ) (buf data : List ℝ)
    (h : buf.length = W) :
    data_callback W buf data = ([], some buf) :=
  data_callback_full h data

/-- Witness for c4_exactly_full_buffer at window_size 2, buffer [5, 6],
chunk [7]. -/
theorem c4_exactly_full_buffer_witness :
    data_callback 2 [5, 6] [7] = ([], some [5, 6]) :=
  c4_exactly_full_buffer 2 [5, 6] [7] rfl

/-- Helper: from any over-full buffer state, iterating the callback over
any sequence of chunks appends every chunk and never emits a window. -/
theorem run_callbacks_over {W : ℕ} :
    ∀ (chunks : List (List ℝ)) (buf : List ℝ), W < buf.length →
      run_callbacks W buf chunks = (buf ++ chunks.flatten, []) := by
  intro chunks
  induction chunks with
  | nil => intro buf h; simp [run_callbacks]
  | cons c cs ih =>
    intro buf h
    have hstep := data_callback_over h c
    have h2 : W < (buf ++ c).length := by simp; omega
    simp [run_callbacks, hstep, ih (buf ++ c) h2]

/-- Claim C10 (confirmed): if at the start of a callback the internal
buffer holds strictly more than window_size samples, the callback appends
the entire incoming chunk and emits no window; consequently from such a
state no window is ever emitted again and the buffer only grows (its
content after any further chunks is the old buffer followed by all of
them).  Such a state is reachable: with window_size 2, the single chunk
[0, 1, 2, 3, 4] leaves a retained buffer of three samples. -/
theorem c10_overflow_lockout (W : ℕ) (buf : List ℝ) (h : W < buf.length) :
    (∀ data, data_callback W buf data = (buf ++ data, none)) ∧
    (∀ chunks : List (List ℝ),
      (run_callbacks W buf chunks).2 = [] ∧
      (run_callbacks W buf chunks).1 = buf ++ chunks.flatten ∧
      buf.length ≤ ((run_callbacks W buf chunks).1).length) ∧
    2 < ((run_callbacks 2 ([] : List ℝ) [[0, 1, 2, 3, 4]]).1).length := by
  refine ⟨fun data => data_callback_over h data, fun chunks => ?_, ?_⟩
  · rw [run_callbacks_over chunks buf h]
    simp
  · have hr : (run_callbacks 2 ([] : List ℝ) [[0, 1, 2, 3, 4]]).1 = [2, 3, 4] := rfl
    rw [hr]
    simp

/-- Witness for c10_overflow_lockout at window_size 2 with the over-full
buffer [3, 4, 5] and chunk [9]. -/
theorem c10_overflow_lockout_witness :
    data_callback 2 [3, 4, 5] [9] = ([3, 4, 5] ++ [9], none) :=
  (c10_overflow_lockout 2 [3, 4, 5] (by simp)).1 [9]

/-- Helper: conservation invariant of the accumulator run.  Starting from
a buffer shorter than W and under the per-chunk bound, every emitted
window has length W, the windows followed by the final buffer spell out
the input samples in order, and the final buffer stays shorter than W. -/
theorem run_callbacks_conservation {W : ℕ} :
    ∀ (chunks : List (List ℝ)) (buf : List ℝ), buf.length < W →
      chunks_bounded W buf chunks →
      (∀ w ∈ (run_callbacks W buf chunks).2, w.length = W) ∧
      ((run_callbacks W buf chunks).2).flatten ++ (run_callbacks W buf chunks).1 =
        buf ++ chunks.flatten ∧
      ((run_callbacks W buf chunks).1).length < W := by
  intro chunks
  induction chunks with
  | nil =>
    intro buf h hb
    simp [run_callbacks]
    exact h
  | cons c cs ih =>
    intro buf h hb
    rcases hb with ⟨hbound, hrest⟩
    by_cases hs : W ≤ buf.length + c.length
    · have hstep := data_callback_split h hs
      have hrest2 : chunks_bounded W (c.drop (W - buf.length)) cs := by
        rw [hstep] at hrest
        exact hrest
      have hdlen : (c.drop (W - buf.length)).length < W := by
        simp [List.length_drop]
        omega
      rcases ih (c.drop (W - buf.length)) hdlen hrest2 with ⟨ha, hc, hl⟩
      have hwlen : (buf ++ c.take (W - buf.length)).length = W := by
        simp [List.length_take]
        omega
      constructor
      · intro w hw
        simp only [run_callbacks, hstep, Option.toList_some, List.cons_append,
          List.nil_append, List.mem_cons] at hw
        rcases hw with hw | hw
        · rw [hw]; exact hwlen
        · exact ha w hw
      constructor
      · simp only [run_callbacks, hstep, Option.toList_some, List.cons_append,
          List.nil_append, List.flatten_cons]
        rw [List.append_assoc, hc]
        simp only [List.flatten_cons, ← List.append_assoc]
        rw [List.append_assoc buf, List.take_append_drop]
      · simp only [run_callbacks, hstep]
        exact hl
    · push_neg at hs
      have hstep := data_callback_small hs
      have hrest2 : chunks_bounded W (buf ++ c) cs := by
        rw [hstep] at hrest
        exact hrest
      have hdlen : (buf ++ c).length < W := by
        simp
        omega
      rcases ih (buf ++ c) hdlen hrest2 with ⟨ha, hc, hl⟩
      refine ⟨?_, ?_, ?_⟩
      · intro w hw
        simp only [run_callbacks, hstep, Option.toList_none, List.nil_append] at hw
        exact ha w hw
      · simp only [run_callbacks, hstep, Option.toList_none, List.nil_append,
          List.flatten_cons]
        rw [hc]
        simp [List.append_assoc]
      · simp only [run_callbacks, hstep]
        exact hl

/-- Helper: the concatenation of a list of windows, all of length W, has
length (number of windows) * W. -/
theorem flatten_length_const {W : ℕ} :
    ∀ ws : List (List ℝ), (∀ w ∈ ws, w.length = W) →
      ws.flatten.length = ws.length * W := by
  intro ws
  induction ws with
  | nil => simp
  | cons w ws ih =>
    intro h
    have hw : w.length = W := h w (by simp)
    have hih := ih fun x hx => h x (by simp [hx])
    simp [hw, hih]
    ring

/-- Claim C1 (amended): sample conservation of the accumulator holds
provided that at each callback the retained buffer plus the incoming
chunk hold fewer than 2 * window_size samples (equivalently, no chunk
crosses more than one window boundary; without this side condition the
claim fails, see c1_counterexample, because the callback emits at most
one window per chunk).  Under that side condition, for a sequence of
chunks of concatenated length k * window_size + r with 0 <= r <
window_size, exactly k windows are emitted, each of length window_size,
their in-order concatenation is the first k * window_size input samples,
and the r remaining samples stay in the internal buffer. -/
theorem c1_sample_conservation (W : ℕ) (hW : 0 < W)
    (chunks : List (List ℝ)) (hb : chunks_bounded W [] chunks) :
    ((run_callbacks W [] chunks).2).length = chunks.flatten.length / W ∧
    (∀ w ∈ (run_callbacks W [] chunks).2, w.length = W) ∧
    ((run_callbacks W [] chunks).2).flatten =
      chunks.flatten.take (chunks.flatten.length / W * W) ∧
    (run_callbacks W [] chunks).1 =
      chunks.flatten.drop (chunks.flatten.length / W * W) ∧
    ((run_callbacks W [] chunks).1).length = chunks.flatten.length % W := by
  rcases run_callbacks_conservation chunks [] (by simpa using hW) hb with ⟨ha, hc, hl⟩
  rw [List.nil_append] at hc
  have hflat := flatten_length_const (run_callbacks W [] chunks).2 ha
  have htot : chunks.flatten.length =
      W * ((run_callbacks W [] chunks).2).length +
        ((run_callbacks W [] chunks).1).length := by
    rw [← hc]
    simp [hflat]
    ring
  have hdiv : chunks.flatten.length / W = ((run_callbacks W [] chunks).2).length := by
    rw [htot, Nat.mul_add_div hW, Nat.div_eq_of_lt hl]
    omega
  have hmod : chunks.flatten.length % W = ((run_callbacks W [] chunks).1).length := by
    rw [htot, Nat.mul_add_mod, Nat.mod_eq_of_lt hl]
  refine ⟨hdiv.symm, ha, ?_, ?_, hmod.symm⟩
  · rw [hdiv, ← hflat, ← hc, List.take_left]
  · rw [hdiv, ← hflat, ← hc, List.drop_left]

/-- Claim C1 counterexample: with window_size 2, the single chunk
[0, 1, 2, 3, 4] has concatenated length 5 = 2 * 2 + 1, so the claim
demands exactly two windows and one retained sample; the code emits only
one window in this callback and retains three samples. -/
theorem c1_counterexample :
    run_callbacks 2 ([] : List ℝ) [[0, 1, 2, 3, 4]] = ([2, 3, 4], [[0, 1]]) ∧
    ((run_callbacks 2 ([] : List ℝ) [[0, 1, 2, 3, 4]]).2).length ≠
      ([[(0 : ℝ), 1, 2, 3, 4]].flatten).length / 2 := by
  refine ⟨rfl, ?_⟩
  have h1 : ((run_callbacks 2 ([] : List ℝ) [[0, 1, 2, 3, 4]]).2).length = 1 := rfl
  have h2 : ([[(0 : ℝ), 1, 2, 3, 4]].flatten).length = 5 := rfl
  rw [h1, h2]
  norm_num

/-- Witness for c1_sample_conservation at window_size 2 with the single
chunk [1, 2, 3]: one window is emitted (3 / 2 = 1). -/
theorem c1_sample_conservation_witness :
    chunks_bounded 2 [] [[(1 : ℝ), 2, 3]] ∧
    ((run_callbacks 2 ([] : List ℝ) [[1, 2, 3]]).2).length =
      ([[(1 : ℝ), 2, 3]].flatten).length / 2 := by
  have hb : chunks_bounded 2 ([] : List ℝ) [[(1 : ℝ), 2, 3]] := by
    refine ⟨by simp, trivial⟩
  exact ⟨hb, (c1_sample_conservation 2 (by norm_num) [[1, 2, 3]] hb).1⟩

/-- Helper: a nonzero natural with n &&& (n - 1) = 0 is a power of two. -/
theorem exists_pow_of_land_pred :
    ∀ n : ℕ, n ≠ 0 → n &&& (n - 1) = 0 → ∃ k, n = 2 ^ k := by
  intro n
  induction n using Nat.strong_induction_on with
  | _ n ih =>
    intro hn hand
    have hbits : ∀ i, ¬(n.testBit i = true ∧ (n - 1).testBit i = true) := by
      intro i hi
      have h2 := congrArg (fun m => Nat.testBit m i) hand
      simp [Nat.testBit_land, Nat.zero_testBit, hi.1, hi.2] at h2
    rcases Nat.mod_two_eq_zero_or_one n with hpar | hpar
    · have hm : n / 2 ≠ 0 := by omega
      have hm2 : n / 2 < n := by omega
      have hand2 : (n / 2) &&& (n / 2 - 1) = 0 := by
        apply Nat.eq_of_testBit_eq
        intro i
        rw [Nat.testBit_land, Nat.zero_testBit]
        have hb := hbits (i + 1)
        rw [Nat.testBit_add_one, Nat.testBit_add_one] at hb
        have heq : (n - 1) / 2 = n / 2 - 1 := by omega
        rw [heq] at hb
        cases hA : (n / 2).testBit i <;> cases hB : (n / 2 - 1).testBit i <;> simp_all
      rcases ih (n / 2) hm2 hm hand2 with ⟨k, hk⟩
      exact ⟨k + 1, by rw [pow_succ]; omega⟩
    · by_cases h1 : n = 1
      · exact ⟨0, by simp [h1]⟩
      · exfalso
        have hm : n / 2 ≠ 0 := by omega
        rcases Nat.ne_zero_implies_bit_true hm with ⟨j, hj⟩
        apply hbits (j + 1)
        refine ⟨?_, ?_⟩
        · rw [Nat.testBit_add_one]
          exact hj
        · rw [Nat.testBit_add_one]
          have heq : (n - 1) / 2 = n / 2 := by omega
          rw [heq]
          exact hj

/-- Helper: the bit test n != 0 && (n & (n - 1)) == 0 of the source holds
exactly on the powers of two. -/
theorem is_power_of_two_iff (n : ℕ) :
    is_power_of_two n = true ↔ ∃ k, n = 2 ^ k := by
  constructor
  · intro h
    simp [is_power_of_two] at h
    exact exists_pow_of_land_pred n h.1 h.2
  · rintro ⟨k, rfl⟩
    simp [is_power_of_two, Nat.and_pow_two_sub_one_eq_mod]

/-- Helper: getD on a replicated zero list is zero at every index. -/
theorem getD_replicate_zero : ∀ m i : ℕ, (List.replicate m (0 : ℂ)).getD i 0 = 0
  | 0, _ => rfl
  | _ + 1, 0 => rfl
  | m + 1, i + 1 => getD_replicate_zero m i

/-- Helper: fft returns a length-1 signal unchanged. -/
theorem fft_length_one {s : List ℂ} (h : s.length = 1) : fft s = some s := by
  have hp : is_power_of_two s.length = true := by rw [h]; rfl
  rw [fft, dif_pos hp, dif_pos h]

/-- Helper: on any power-of-two-length signal fft succeeds (so the
power-of-two guard also holds in every recursive call) and the output has
the same length as the input. -/
theorem fft_pow_some :
    ∀ n : ℕ, (∃ k, n = 2 ^ k) → ∀ s : List ℂ, s.length = n →
      ∃ out, fft s = some out ∧ out.length = n := by
  intro n
  induction n using Nat.strong_induction_on with
  | _ n ih =>
    rintro ⟨k, rfl⟩ s hs
    by_cases h1 : s.length = 1
    · exact ⟨s, fft_length_one h1, hs⟩
    · have hkpos : k ≠ 0 := by
        rintro rfl
        rw [pow_zero] at hs
        exact h1 hs
      obtain ⟨j, rfl⟩ : ∃ j, k = j + 1 := ⟨k - 1, by omega⟩
      have h2 : (2 : ℕ) ^ (j + 1) = 2 * 2 ^ j := by
        rw [pow_succ]
        ring
      have h1pow : 1 ≤ (2 : ℕ) ^ j := Nat.one_le_two_pow
      have hn2 : s.length = 2 * 2 ^ j := by rw [hs, h2]
      have heven_len : (even_slice s).length = 2 ^ j := by
        simp [even_slice]
        omega
      have hodd_len : (odd_slice s).length = 2 ^ j := by
        simp [odd_slice]
        omega
      have hlt : 2 ^ j < 2 ^ (j + 1) := by omega
      rcases ih (2 ^ j) hlt ⟨j, rfl⟩ (even_slice s) heven_len with ⟨ev, hev, hevl⟩
      rcases ih (2 ^ j) hlt ⟨j, rfl⟩ (odd_slice s) hodd_len with ⟨od, hod, hodl⟩
      have hp : is_power_of_two s.length = true := by
        rw [hs]
        exact (is_power_of_two_iff _).mpr ⟨j + 1, rfl⟩
      rw [fft, dif_pos hp, dif_neg h1]
      simp only [hev, hod]
      refine ⟨_, rfl, ?_⟩
      simp only [List.length_append, List.length_map, List.length_range]
      omega

/-- Claim C3 (confirmed): fft aborts (modelled none) exactly on signals
whose length is not a power of two; on every power-of-two length it
completes, with no panic triggered in any recursive call, and the output
has the same length as the input (never silently truncated or padded). -/
theorem c3_power_of_two_precondition (s : List ℂ) :
    (¬ (∃ k, s.length = 2 ^ k) → fft s = none) ∧
    ((∃ k, s.length = 2 ^ k) →
      ∃ out, fft s = some out ∧ out.length = s.length) := by
  constructor
  · intro h
    rw [fft, dif_neg fun hc => h ((is_power_of_two_iff s.length).mp hc)]
  · intro h
    exact fft_pow_some s.length h s rfl

/-- Witness for c3_power_of_two_precondition: a length-3 signal is
rejected; a length-2 signal is transformed with its length preserved. -/
theorem c3_power_of_two_precondition_witness :
    fft [1, 1, 1] = none ∧
    (∃ out, fft [1, 1] = some out ∧ out.length = ([1, 1] : List ℂ).length) := by
  constructor
  · refine (c3_power_of_two_precondition [1, 1, 1]).1 ?_
    rintro ⟨k, hk⟩
    have h3 : ([1, 1, 1] : List ℂ).length = 3 := rfl
    rw [h3] at hk
    rcases k with _ | _ | k
    · norm_num at hk
    · norm_num at hk
    · have h4 : (2 : ℕ) ^ (k + 2) = 4 * 2 ^ k := by ring
      have h5 : 1 ≤ (2 : ℕ) ^ k := Nat.one_le_two_pow
      omega
  · exact (c3_power_of_two_precondition [1, 1]).2 ⟨1, rfl⟩

/-- Helper: the even stride slice of a replicated-zero list is
replicated zero. -/
theorem even_slice_replicate (m : ℕ) :
    even_slice (List.replicate m 0) = List.replicate ((m + 1) / 2) 0 := by
  simp [even_slice, getD_replicate_zero, List.map_const']

/-- Helper: the odd stride slice of a replicated-zero list is replicated
zero. -/
theorem odd_slice_replicate (m : ℕ) :
    odd_slice (List.replicate m 0) = List.replicate (m / 2) 0 := by
  simp [odd_slice, getD_replicate_zero, List.map_const']

/-- Helper: fft maps an all-zero power-of-two window to the all-zero
window. -/
theorem fft_replicate_zero :
    ∀ k : ℕ, fft (List.replicate (2 ^ k) 0) = some (List.replicate (2 ^ k) 0) := by
  intro k
  induction k with
  | zero => exact fft_length_one (by simp)
  | succ j ih =>
    have hlen : (List.replicate (2 ^ (j + 1)) (0 : ℂ)).length = 2 ^ (j + 1) := by
      simp
    have hp : is_power_of_two (List.replicate (2 ^ (j + 1)) (0 : ℂ)).length = true := by
      rw [hlen]
      exact (is_power_of_two_iff _).mpr ⟨j + 1, rfl⟩
    have h2 : (2 : ℕ) ^ (j + 1) = 2 * 2 ^ j := by
      rw [pow_succ]
      ring
    have h1pow : 1 ≤ (2 : ℕ) ^ j := Nat.one_le_two_pow
    have hne1 : ¬ (List.replicate (2 ^ (j + 1)) (0 : ℂ)).length = 1 := by
      rw [hlen]
      omega
    have he : even_slice (List.replicate (2 ^ (j + 1)) 0) = List.replicate (2 ^ j) 0 := by
      rw [even_slice_replicate]
      congr 1
      omega
    have ho : odd_slice (List.replicate (2 ^ (j + 1)) 0) = List.replicate (2 ^ j) 0 := by
      rw [odd_slice_replicate]
      congr 1
      omega
    rw [fft, dif_pos hp, dif_neg hne1]
    simp only [he, ho, ih, List.length_replicate]
    have hdiv : (2 : ℕ) ^ (j + 1) / 2 = 2 ^ j := by omega
    simp only [hdiv, getD_replicate_zero, mul_zero, add_zero, sub_zero,
      List.map_const', List.length_range, ← List.replicate_add]
    rw [show (2 : ℕ) ^ j + 2 ^ j = 2 ^ (j + 1) by omega]

/-- Claim C2 (confirmed): for every power-of-two length n = 2 ^ k, the
transform of the all-zero window is the all-zero window, whose magnitude
spectrum (the complex modulus of every bin, as taken in the data
callback) is n zeros; and any window of length 1 is returned unchanged
by the transform. -/
theorem c2_zero_window_and_base :
    (∀ k : ℕ, fft (List.replicate (2 ^ k) 0) = some (List.replicate (2 ^ k) 0) ∧
      (List.replicate (2 ^ k) (0 : ℂ)).map Complex.abs =
        List.replicate (2 ^ k) (0 : ℝ)) ∧
    (∀ s : List ℂ, s.length = 1 → fft s = some s) := by
  constructor
  · intro k
    refine ⟨fft_replicate_zero k, ?_⟩
    simp [List.map_replicate]
  · intro s h
    exact fft_length_one h

/-- Witness for c2_zero_window_and_base: the all-zero window of length 4
and the singleton window [I]. -/
theorem c2_zero_window_and_base_witness :
    fft (List.replicate (2 ^ 2) 0) = some (List.replicate (2 ^ 2) 0) ∧
    fft [Complex.I] = some [Complex.I] :=
  ⟨(c2_zero_window_and_base.1 2).1, c2_zero_window_and_base.2 [Complex.I] rfl⟩

/-- Helper: rust_trunc is the identity on integers. -/
theorem rust_trunc_intCast (m : ℤ) : rust_trunc (m : ℝ) = m := by
  unfold rust_trunc
  split <;> simp

/-- Helper: rust_round is the identity on integers. -/
theorem rust_round_intCast (m : ℤ) : rust_round (m : ℝ) = (m : ℝ) := by
  unfold rust_round
  split
  · have h : round (-(m : ℝ)) = -m := by
      rw [show (-(m : ℝ)) = ((-m : ℤ) : ℝ) by push_cast; ring, round_intCast]
    rw [h]
    push_cast
    ring
  · rw [round_intCast]

/-- Helper: the embedded frequency-to-key mapping sends 440 Hz to key 49
exactly (log2 of 440 / 440 = 1 is 0). -/
theorem frequency_to_key_number_440 : frequency_to_key_number 440 = 49 := by
  unfold frequency_to_key_number
  norm_num [Real.logb_one]

/-- Helper: the error percentage of equal raw and target note numbers
is 0. -/
theorem get_error_percentage_self (x : ℝ) : get_error_percentage x x = 0 := by
  unfold get_error_percentage f32_as_i8
  have h0 : (x - x) * 100 = 0 := by ring
  have h1 : rust_round 0 = ((0 : ℤ) : ℝ) := by
    have h := rust_round_intCast 0
    simpa using h
  rw [h0, h1, rust_trunc_intCast]
  rfl

/-- Claim C6 (confirmed): frequency_to_key_number sends 440 Hz to key
49.0 exactly, and for every frequency whose key number is exactly an
integer the raw and rounded pitch classes coincide, so the computed
error percentage is 0. -/
theorem c6_note_mapping_exact :
    frequency_to_key_number 440 = 49 ∧
    ∀ freq : ℝ, (∃ m : ℤ, frequency_to_key_number freq = (m : ℝ)) →
      (NoteStatus.new freq).error_percentage = 0 := by
  refine ⟨frequency_to_key_number_440, ?_⟩
  rintro freq ⟨m, hm⟩
  show get_error_percentage
      (key_to_raw_note_number (frequency_to_key_number freq))
      (key_to_raw_note_number (rust_round (frequency_to_key_number freq))) = 0
  rw [hm, rust_round_intCast]
  exact get_error_percentage_self _

/-- Witness for c6_note_mapping_exact at the frequency 440 Hz, whose key
number is the integer 49. -/
theorem c6_note_mapping_exact_witness :
    (NoteStatus.new 440).error_percentage = 0 := by
  refine c6_note_mapping_exact.2 440 ⟨49, ?_⟩
  rw [frequency_to_key_number_440]
  norm_num

/-- Claim C5 (code_bug evaluation): at the input 440 Hz the code computes
key 49, pitch class ((49 - 1) % 12) - 2 = -2, the saturating cast sends
index -2 - 1 = -3 to 0, so the displayed note name is C (not A as the
claim and the code documentation intend), and the octave is
floor(49 / 12) + 1 = 5 (not 4). -/
theorem c5_a4_display_bug :
    (NoteStatus.new 440).key_number = 49 ∧
    (NoteStatus.new 440).note_number = -2 ∧
    note_number_to_name (NoteStatus.new 440).note_number = some ("C ") ∧
    get_octave_by_key_number (NoteStatus.new 440).key_number = 5 := by
  have hkey : (NoteStatus.new 440).key_number = 49 := frequency_to_key_number_440
  have h49 : rust_round (49 : ℝ) = 49 := by
    have h := rust_round_intCast 49
    push_cast at h
    exact h
  have hnn : (NoteStatus.new 440).note_number = -2 := by
    show key_to_raw_note_number (rust_round (frequency_to_key_number 440)) = -2
    rw [frequency_to_key_number_440, h49]
    unfold key_to_raw_note_number rust_rem
    have ha : ((49 : ℝ) - 1) / 12 = ((4 : ℤ) : ℝ) := by
      push_cast
      norm_num
    rw [ha, rust_trunc_intCast]
    push_cast
    norm_num
  refine ⟨hkey, hnn, ?_, ?_⟩
  · rw [hnn]
    unfold note_number_to_name f32_as_usize
    rw [show ((-2 : ℝ) - 1) = ((-3 : ℤ) : ℝ) by push_cast; norm_num,
      rust_trunc_intCast]
    rfl
  · rw [hkey]
    unfold get_octave_by_key_number f32_as_u8 rust_floor
    rw [h49]
    rw [show ⌊(49 : ℝ) / 12⌋ = (4 : ℤ) by norm_num]
    rw [show (((4 : ℤ) : ℝ)) + 1 = ((5 : ℤ) : ℝ) by push_cast; norm_num,
      rust_trunc_intCast]
    rfl

/-- Claim C8 (confirmed): note_number_to_name maps the integer pitch
classes 1 through 12 to the twelve note names, with 1 giving C. -/
theorem c8_note_naming_table :
    note_number_to_name 1 = some ("C ") ∧ note_number_to_name 2 = some ("C#") ∧
    note_number_to_name 3 = some ("D ") ∧ note_number_to_name 4 = some ("D#") ∧
    note_number_to_name 5 = some ("E ") ∧ note_number_to_name 6 = some ("F ") ∧
    note_number_to_name 7 = some ("F#") ∧ note_number_to_name 8 = some ("G ") ∧
    note_number_to_name 9 = some ("G#") ∧ note_number_to_name 10 = some ("A ") ∧
    note_number_to_name 11 = some ("A#") ∧ note_number_to_name 12 = some ("B ") := by
  refine ⟨?_, ?_, ?_, ?_, ?_, ?_, ?_, ?_, ?_, ?_, ?_, ?_⟩ <;>
    unfold note_number_to_name f32_as_usize
  · rw [show ((1 : ℝ) - 1) = ((0 : ℤ) : ℝ) by norm_num, rust_trunc_intCast]
    rfl
  · rw [show ((2 : ℝ) - 1) = ((1 : ℤ) : ℝ) by norm_num, rust_trunc_intCast]
    rfl
  · rw [show ((3 : ℝ) - 1) = ((2 : ℤ) : ℝ) by norm_num, rust_trunc_intCast]
    rfl
  · rw [show ((4 : ℝ) - 1) = ((3 : ℤ) : ℝ) by norm_num, rust_trunc_intCast]
    rfl
  · rw [show ((5 : ℝ) - 1) = ((4 : ℤ) : ℝ) by norm_num, rust_trunc_intCast]
    rfl
  · rw [show ((6 : ℝ) - 1) = ((5 : ℤ) : ℝ) by norm_num, rust_trunc_intCast]
    rfl
  · rw [show ((7 : ℝ) - 1) = ((6 : ℤ) : ℝ) by norm_num, rust_trunc_intCast]
    rfl
  · rw [show ((8 : ℝ) - 1) = ((7 : ℤ) : ℝ) by norm_num, rust_trunc_intCast]
    rfl
  · rw [show ((9 : ℝ) - 1) = ((8 : ℤ) : ℝ) by norm_num, rust_trunc_intCast]
    rfl
  · rw [show ((10 : ℝ) - 1) = ((9 : ℤ) : ℝ) by norm_num, rust_trunc_intCast]
    rfl
  · rw [show ((11 : ℝ) - 1) = ((10 : ℤ) : ℝ) by norm_num, rust_trunc_intCast]
    rfl
  · rw [show ((12 : ℝ) - 1) = ((11 : ℤ) : ℝ) by norm_num, rust_trunc_intCast]
    rfl

/-- Claim C7 counterexample: with maxBinsDisplayed = 10 and barWidth = 5,
cursor position 52 lies at or beyond the last displayed bar
(52 >= 5 * 10 = 50), so the code returns no bin, not bin
(52 / 5) mod 10 = 0 as the claim states. -/
theorem c7_counterexample :
    graph_select 52 5 10 = none ∧ graph_select 52 5 10 ≠ some 0 := by
  refine ⟨by decide, by decide⟩

/-- Claim C7 (amended): for a nonnegative cursor within the i32 range and
a positive bar width, a cursor strictly inside the displayed region
selects bin (cursor / barWidth) mod maxBinsDisplayed (in particular
cursor 0 selects bin 0), and a cursor at or beyond the last displayed bar
selects nothing; in particular with maxBinsDisplayed = 10 and barWidth =
5, the cursor 52 is at or beyond the last bar (52 >= 50) and selects
nothing, rather than bin 0 as the unamended claim says (see
c7_counterexample). -/
theorem c7_bin_selection (mouse_x frequency_bar_width : ℤ) (max_bins : ℕ)
    (h0 : 0 ≤ mouse_x) (hbw : 0 < frequency_bar_width)
    (h31 : mouse_x < 2 ^ 31) :
    (mouse_x < frequency_bar_width * max_bins →
      graph_select mouse_x frequency_bar_width max_bins =
        some ((mouse_x / frequency_bar_width).toNat % max_bins)) ∧
    (frequency_bar_width * max_bins ≤ mouse_x →
      graph_select mouse_x frequency_bar_width max_bins = none) ∧
    graph_select 0 5 10 = some 0 ∧
    graph_select 52 5 10 = none := by
  refine ⟨?_, ?_, by decide, by decide⟩
  · intro h
    unfold graph_select
    rw [if_neg (not_le.mpr h)]
    unfold i32_as_usize
    rw [Int.tdiv_eq_ediv h0 (le_of_lt hbw)]
    have hq0 : 0 ≤ mouse_x / frequency_bar_width :=
      Int.ediv_nonneg h0 (le_of_lt hbw)
    have hqle : mouse_x / frequency_bar_width ≤ mouse_x :=
      Int.ediv_le_self frequency_bar_width h0
    have hqlt : mouse_x / frequency_bar_width < (2 : ℤ) ^ 64 := by
      have hc : (2 : ℤ) ^ 31 < (2 : ℤ) ^ 64 := by norm_num
      omega
    rw [Int.emod_eq_of_lt hq0 hqlt]
  · intro h
    unfold graph_select
    rw [if_pos h]

/-- Witness for c7_bin_selection: cursor 7, bar width 5, ten bars:
bin (7 / 5) mod 10 = 1 is selected. -/
theorem c7_bin_selection_witness :
    graph_select 7 5 10 = some (((7 : ℤ) / 5).toNat % 10) :=
  (c7_bin_selection 7 5 10 (by decide) (by decide) (by decide)).1 (by decide)

/-- Claim C9 (confirmed): when the pause flag is set, one run of the
graph sync leaves the working copy unchanged and its result does not
depend on the shared slot contents (the slot is not read); when the flag
is clear, the working copy is replaced by the current slot contents. -/
theorem c9_pause_frame_effect (paused : Bool) (data_buffer locker : List ℝ) :
    (paused = true →
      graph_run_sync paused data_buffer locker = data_buffer ∧
      ∀ other : List ℝ,
        graph_run_sync paused data_buffer other =
          graph_run_sync paused data_buffer locker) ∧
    (paused = false → graph_run_sync paused data_buffer locker = locker) := by
  constructor
  · rintro rfl
    exact ⟨rfl, fun other => rfl⟩
  · rintro rfl
    rfl

/-- Witness for c9_pause_frame_effect: with buffer [1] and slot [2], a
paused run keeps [1] and an unpaused run copies [2]. -/
theorem c9_pause_frame_effect_witness :
    graph_run_sync true [1] [2] = [1] ∧ graph_run_sync false [1] [2] = [2] :=
  ⟨((c9_pause_frame_effect true [1] [2]).1 rfl).1,
    (c9_pause_frame_effect false [1] [2]).2 rfl⟩

end Analyzer
